import Mathlib

/-!
# Verification of the sogon job-scheduling and chunk-reconciliation subsystem

A shallow embedding, in Lean 4, of the core algorithms of the `sogon`
repository, together with proofs (and refutations) of the specification
claims about them.  Times are modelled as rationals (the Python code uses
floating-point seconds / integer milliseconds; none of the properties
below hinges on rounding).  Embedded components:

* `sogon/corrector.py` — `sort_timestamps_and_fix_overlaps`
* `sogon/services/transcription_service.py` — `transcribe_audio`,
  `transcribe_chunks`, `combine_transcriptions`,
  `_combine_segments_with_offset`
* `sogon/downloader.py` — `split_audio_by_size`
* `sogon/queue/memory_queue.py` — `enqueue`, `dequeue`, `cancel`
* `sogon/workers/job_worker.py` — `_process_job`, `_execute_with_retry`
* `sogon/services/workflow_service.py` — `_process_local_file_workflow`
-/

namespace Sogon

/-! ## Corrector: `sort_timestamps_and_fix_overlaps` (sogon/corrector.py)

The Python function works on `(start, end, text)` tuples whose `start`/`end`
are `HH:MM:SS.mmm` strings; every comparison goes through `parse_timestamp`
(string to seconds).  We model an entry by its parsed times in `ℚ` together
with its text; `parse_timestamp`/`format_timestamp` round-trips are the
identity on millisecond-precision times. -/

/-- One timestamped subtitle entry `(start, end, text)`, times in seconds. -/
structure TsEntry where
  start : ℚ
  stop : ℚ
  text : String
deriving DecidableEq

/-- The sort key comparison used by `sorted(timestamps_data, key=lambda x:
parse_timestamp(x[0]))`: compare entries by start time (stable sort). -/
def tsLE (a b : TsEntry) : Bool := a.start ≤ b.start

/-- One iteration of the overlap-fix loop body of
`sort_timestamps_and_fix_overlaps`: given the accumulator `fixed_data` and
the next (sorted) entry, append the entry, adjusting it when it overlaps
the previously accepted entry `fixed_data[-1]`. -/
def fixStep (fixedData : List TsEntry) (s : TsEntry) : List TsEntry :=
  match fixedData.getLast? with
  | some p =>
    if s.start < p.stop then
      -- adjusted_start = fixed_data[-1][1]
      let adjustedStart := p.stop
      -- if end_seconds <= parse(adjusted_start): end = parse(adjusted_start) + 1.0
      let adjustedEnd := if s.stop ≤ adjustedStart then adjustedStart + 1 else s.stop
      fixedData ++ [⟨adjustedStart, adjustedEnd, s.text⟩]
    else
      fixedData ++ [s]
  | none => fixedData ++ [s]

/-- `sort_timestamps_and_fix_overlaps`: sort by start time, then fix
overlapping time intervals in a single left-to-right pass. -/
def sort_timestamps_and_fix_overlaps (timestampsData : List TsEntry) : List TsEntry :=
  (timestampsData.mergeSort tsLE).foldl fixStep []

/-- Recursive reformulation of the fix pass, carrying the previously
accepted entry instead of re-reading `fixed_data[-1]`. -/
def fixFrom : Option TsEntry → List TsEntry → List TsEntry
  | _, [] => []
  | none, s :: rest => s :: fixFrom (some s) rest
  | some p, s :: rest =>
    if s.start < p.stop then
      let s' : TsEntry := ⟨p.stop, if s.stop ≤ p.stop then p.stop + 1 else s.stop, s.text⟩
      s' :: fixFrom (some s') rest
    else
      s :: fixFrom (some s) rest

theorem foldl_fixStep_eq (l : List TsEntry) :
    ∀ (acc : List TsEntry), List.foldl fixStep acc l = acc ++ fixFrom acc.getLast? l := by
  induction l with
  | nil => intro acc; simp [fixFrom]
  | cons s rest ih =>
    intro acc
    match hl : acc.getLast? with
    | none =>
      have hacc : acc = [] := by
        cases acc with
        | nil => rfl
        | cons a t => simp [List.getLast?_eq_getLast] at hl
      subst hacc
      simp only [List.foldl_cons, fixStep, List.getLast?_nil, List.nil_append]
      rw [ih [s]]
      simp [fixFrom]
    | some p =>
      simp only [List.foldl_cons, fixStep, hl, fixFrom]
      by_cases hov : s.start < p.stop
      · simp only [if_pos hov]
        rw [ih]
        simp [List.getLast?_concat]
      · simp only [if_neg hov]
        rw [ih]
        simp [List.getLast?_concat]

theorem sort_fix_eq_fixFrom (l : List TsEntry) :
    sort_timestamps_and_fix_overlaps l = fixFrom none (l.mergeSort tsLE) := by
  unfold sort_timestamps_and_fix_overlaps
  rw [foldl_fixStep_eq]
  simp

/-- The non-overlap relation the repaired list satisfies between adjacent
entries: the earlier entry ends no later than the later one starts. -/
def NoOverlap (p n : TsEntry) : Prop := p.stop ≤ n.start

theorem fixFrom_chain' (l : List TsEntry) :
    ∀ p : TsEntry, List.Chain' NoOverlap (p :: fixFrom (some p) l) := by
  induction l with
  | nil => intro p; simp [fixFrom]
  | cons s rest ih =>
    intro p
    show List.Chain' NoOverlap (p :: fixFrom (some p) (s :: rest))
    unfold fixFrom
    by_cases hov : s.start < p.stop
    · simp only [if_pos hov]
      exact List.Chain'.cons (le_refl p.stop) (ih _)
    · simp only [if_neg hov]
      exact List.Chain'.cons (le_of_not_lt hov) (ih s)

theorem fixFrom_none_chain' (l : List TsEntry) :
    List.Chain' NoOverlap (fixFrom none l) := by
  cases l with
  | nil => simp [fixFrom]
  | cons s rest =>
    show List.Chain' NoOverlap (s :: fixFrom (some s) rest)
    exact fixFrom_chain' rest s

/-- Ordering of entries by start time (the `Prop` counterpart of `tsLE`). -/
def StartLE (a b : TsEntry) : Prop := a.start ≤ b.start

instance : IsTrans TsEntry StartLE := ⟨fun _ _ _ hab hbc => le_trans hab hbc⟩

theorem tsLE_eq_true_iff (a b : TsEntry) : tsLE a b = true ↔ StartLE a b := by
  simp [tsLE, StartLE]

theorem fixFrom_starts_chain' (l : List TsEntry) :
    ∀ p : TsEntry, l.Pairwise StartLE →
      (p.start ≤ p.stop ∨ ∀ s ∈ l, p.start ≤ s.start) →
      List.Chain' StartLE (p :: fixFrom (some p) l) := by
  induction l with
  | nil => intro p _ _; simp [fixFrom]
  | cons s rest ih =>
    intro p hpw hinv
    obtain ⟨hs, hrest⟩ := List.pairwise_cons.mp hpw
    unfold fixFrom
    by_cases hov : s.start < p.stop
    · simp only [if_pos hov]
      have hps : p.start ≤ p.stop := by
        rcases hinv with h | h
        · exact h
        · exact le_of_lt (lt_of_le_of_lt (h s (by simp)) hov)
      refine List.Chain'.cons hps (ih _ hrest (Or.inl ?_))
      by_cases he : s.stop ≤ p.stop
      · simp only [if_pos he]; linarith
      · simp only [if_neg he]; exact le_of_lt (lt_of_not_le he)
    · simp only [if_neg hov]
      have hpstart : StartLE p s := by
        rcases hinv with h | h
        · exact le_trans h (le_of_not_lt hov)
        · exact h s (by simp)
      exact List.Chain'.cons hpstart (ih s hrest (Or.inr hs))

theorem fixFrom_none_starts_chain' (l : List TsEntry) (h : l.Pairwise StartLE) :
    List.Chain' StartLE (fixFrom none l) := by
  cases l with
  | nil => simp [fixFrom]
  | cons s rest =>
    show List.Chain' StartLE (s :: fixFrom (some s) rest)
    exact fixFrom_starts_chain' rest s (List.pairwise_cons.mp h).2
      (Or.inr (List.pairwise_cons.mp h).1)

theorem fixFrom_of_chain' : ∀ (l : List TsEntry) (p : TsEntry),
    List.Chain' NoOverlap (p :: l) → fixFrom (some p) l = l
  | [], _, _ => rfl
  | s :: rest, p, h => by
    obtain ⟨hps, hrest⟩ := List.chain'_cons.mp h
    unfold fixFrom
    rw [if_neg (not_lt.mpr hps)]
    rw [fixFrom_of_chain' rest s hrest]

theorem fixFrom_none_of_chain' (l : List TsEntry) (h : List.Chain' NoOverlap l) :
    fixFrom none l = l := by
  cases l with
  | nil => rfl
  | cons s rest =>
    show s :: fixFrom (some s) rest = s :: rest
    rw [fixFrom_of_chain' rest s h]

theorem tsLE_trans : ∀ (a b c : TsEntry), tsLE a b → tsLE b c → tsLE a c := by
  intro a b c hab hbc
  rw [tsLE_eq_true_iff] at *
  exact le_trans hab hbc

theorem tsLE_total : ∀ (a b : TsEntry), tsLE a b || tsLE b a := by
  intro a b
  by_cases h : a.start ≤ b.start
  · simp [tsLE, h]
  · simp [tsLE, le_of_not_le h]

theorem mergeSort_pairwise_startLE (l : List TsEntry) :
    (l.mergeSort tsLE).Pairwise StartLE := by
  have h := List.sorted_mergeSort tsLE_trans tsLE_total l
  exact h.imp (fun hab => (tsLE_eq_true_iff _ _).mp hab)

theorem sort_fix_pairwise_startLE (l : List TsEntry) :
    (sort_timestamps_and_fix_overlaps l).Pairwise StartLE := by
  rw [← List.chain'_iff_pairwise, sort_fix_eq_fixFrom]
  exact fixFrom_none_starts_chain' _ (mergeSort_pairwise_startLE l)

/-- C2: for every input list of `(start, end, text)` segments, the output
of `sort_timestamps_and_fix_overlaps` satisfies, for every adjacent pair,
`next.start >= previous.end`; and a segment whose start is earlier than the
previous accepted segment's end has its start replaced by that previous
end, with its end forced to (new start + 1.0 s) whenever it would
otherwise be `<=` its new start. -/
theorem overlap_repair_sound :
    (∀ l : List TsEntry,
      List.Chain' NoOverlap (sort_timestamps_and_fix_overlaps l)) ∧
    (∀ (acc : List TsEntry) (p s : TsEntry), acc.getLast? = some p →
      s.start < p.stop →
      fixStep acc s =
        acc ++ [⟨p.stop, if s.stop ≤ p.stop then p.stop + 1 else s.stop, s.text⟩]) := by
  constructor
  · intro l
    rw [sort_fix_eq_fixFrom]
    exact fixFrom_none_chain' _
  · intro acc p s hl hov
    simp [fixStep, hl, if_pos hov]

/-- Witness for C2 at the spec's own example: previous segment `(0,5,"a")`,
next `(4,9,"b")` is clipped to `(5,9,"b")`. -/
theorem overlap_repair_sound_witness :
    (([(⟨0, 5, "a"⟩ : TsEntry)].getLast? = some ⟨0, 5, "a"⟩) ∧ ((4 : ℚ) < 5)) ∧
    fixStep [(⟨0, 5, "a"⟩ : TsEntry)] ⟨4, 9, "b"⟩ = [⟨0, 5, "a"⟩, ⟨5, 9, "b"⟩] := by
  refine ⟨⟨rfl, by norm_num⟩, ?_⟩
  have h := overlap_repair_sound.2 [(⟨0, 5, "a"⟩ : TsEntry)] ⟨0, 5, "a"⟩ ⟨4, 9, "b"⟩ rfl
    (by norm_num)
  simpa using h

/-- C7: reconciliation is idempotent — applying
`sort_timestamps_and_fix_overlaps` to its own output returns that output
unchanged. -/
theorem reconcile_idempotent (l : List TsEntry) :
    sort_timestamps_and_fix_overlaps (sort_timestamps_and_fix_overlaps l) =
      sort_timestamps_and_fix_overlaps l := by
  have hchain : List.Chain' NoOverlap (sort_timestamps_and_fix_overlaps l) := by
    rw [sort_fix_eq_fixFrom]
    exact fixFrom_none_chain' _
  have hsorted := sort_fix_pairwise_startLE l
  rw [sort_fix_eq_fixFrom (sort_timestamps_and_fix_overlaps l)]
  rw [List.mergeSort_of_sorted (hsorted.imp (fun h => (tsLE_eq_true_iff _ _).mpr h))]
  exact fixFrom_none_of_chain' _ hchain

/-! ## Job queue: `MemoryJobQueue` (sogon/queue/memory_queue.py)

State: the underlying `asyncio.Queue` contents (FIFO list, front first),
the `_cancelled_jobs` set (list without duplicates; `cancel` adds only
when absent, `discard` removes the element), and the configured capacity
`max_size`.  The blocking `dequeue` is modelled as returning `none` when
it would block forever (empty queue after discarding cancelled ids). -/

structure QueueState where
  maxSize : Nat
  queue : List String
  cancelled : List String
deriving DecidableEq

/-- `enqueue`: fast rejection when `qsize() >= max_size`, otherwise the
non-blocking put appends to the back and returns `True`. -/
def enqueue (s : QueueState) (jobId : String) : Bool × QueueState :=
  if s.maxSize ≤ s.queue.length then (false, s)
  else (true, { s with queue := s.queue ++ [jobId] })

/-- The `while True` loop of `dequeue` on the raw queue contents: pop the
front; a cancelled id is discarded from the cancelled set and skipped;
otherwise it is returned.  Result: (returned id, remaining queue,
remaining cancelled set). -/
def dequeueLoop : List String → List String → Option String × List String × List String
  | [], cancelled => (none, [], cancelled)
  | j :: rest, cancelled =>
    if j ∈ cancelled then dequeueLoop rest (cancelled.filter (· ≠ j))
    else (some j, rest, cancelled)

/-- `dequeue`: blocks until a non-cancelled job is available (`none` models
blocking forever on an effectively empty queue). -/
def dequeue (s : QueueState) : Option String × QueueState :=
  let r := dequeueLoop s.queue s.cancelled
  (r.1, { s with queue := r.2.1, cancelled := r.2.2 })

/-- `cancel`: add the id to `_cancelled_jobs` (a set) and return `True`
unconditionally (optimistic cancellation). -/
def cancel (s : QueueState) (jobId : String) : Bool × QueueState :=
  (true,
    { s with cancelled := if jobId ∈ s.cancelled then s.cancelled else s.cancelled ++ [jobId] })

theorem dequeueLoop_queue_shrinks :
    ∀ (q c : List String), q ≠ [] → (dequeueLoop q c).2.1.length < q.length := by
  intro q
  induction q with
  | nil => intro c h; exact absurd rfl h
  | cons j rest ih =>
    intro c _
    unfold dequeueLoop
    by_cases hj : j ∈ c
    · rw [if_pos hj]
      by_cases hr : rest = []
      · subst hr
        simp [dequeueLoop]
      · exact Nat.lt_trans (ih _ hr) (Nat.lt_succ_self _)
    · rw [if_neg hj]
      exact Nat.lt_succ_self _

/-- C5: `enqueue` returns `false` exactly when the queue size equals the
configured capacity (for any reachable state, whose size never exceeds the
capacity), and after a `dequeue` from a full queue the next `enqueue`
succeeds again. -/
theorem enqueue_backpressure (s : QueueState) (j j' : String)
    (hle : s.queue.length ≤ s.maxSize) :
    ((enqueue s j).1 = false ↔ s.queue.length = s.maxSize) ∧
    (s.queue.length = s.maxSize → 0 < s.maxSize →
      (enqueue (dequeue s).2 j').1 = true) := by
  constructor
  · unfold enqueue
    by_cases h : s.maxSize ≤ s.queue.length
    · rw [if_pos h]
      simp [Nat.le_antisymm hle h]
    · rw [if_neg h]
      simp only [true_and]
      constructor
      · intro hfalse; cases hfalse
      · intro heq; exact absurd (le_of_eq heq.symm) h
  · intro hfull hpos
    have hne : s.queue ≠ [] := by
      intro h
      rw [h] at hfull
      simp at hfull
      omega
    have hlt : (dequeue s).2.queue.length < s.maxSize := by
      have := dequeueLoop_queue_shrinks s.queue s.cancelled hne
      calc (dequeue s).2.queue.length < s.queue.length := this
        _ = s.maxSize := hfull
    have hlt' : ¬((dequeue s).2.maxSize ≤ (dequeue s).2.queue.length) := not_le.mpr hlt
    unfold enqueue
    rw [if_neg hlt']

/-- Witness for C5: capacity-1 queue holding `"a"`; `enqueue "b"` is
rejected, and after one `dequeue` an `enqueue "c"` succeeds. -/
theorem enqueue_backpressure_witness :
    ((⟨1, ["a"], []⟩ : QueueState).queue.length ≤ 1) ∧
    ((enqueue ⟨1, ["a"], []⟩ "b").1 = false ↔
      (⟨1, ["a"], []⟩ : QueueState).queue.length = 1) ∧
    ((⟨1, ["a"], []⟩ : QueueState).queue.length = 1 → 0 < 1 →
      (enqueue (dequeue ⟨1, ["a"], []⟩).2 "c").1 = true) :=
  ⟨by decide, enqueue_backpressure ⟨1, ["a"], []⟩ "b" "c" (by decide)⟩

theorem dequeueLoop_mem : ∀ (q c : List String) (x : String),
    (dequeueLoop q c).1 = some x → x ∈ q := by
  intro q
  induction q with
  | nil => intro c x h; cases h
  | cons j rest ih =>
    intro c x h
    unfold dequeueLoop at h
    by_cases hj : j ∈ c
    · rw [if_pos hj] at h
      exact List.mem_cons_of_mem _ (ih _ _ h)
    · rw [if_neg hj] at h
      cases h
      exact List.mem_cons_self _ _

theorem dequeueLoop_skips_cancelled :
    ∀ (q c : List String) (j : String), j ∈ c → q.count j ≤ 1 →
      (dequeueLoop q c).1 ≠ some j := by
  intro q
  induction q with
  | nil => intro c j _ _ h; cases h
  | cons a rest ih =>
    intro c j hj hcount
    unfold dequeueLoop
    by_cases ha : a ∈ c
    · rw [if_pos ha]
      by_cases haj : a = j
      · subst haj
        have hnr : rest.count a = 0 := by
          rw [List.count_cons_self] at hcount
          omega
        intro h
        have := dequeueLoop_mem _ _ _ h
        rw [← List.count_pos_iff] at this
        omega
      · have hja : j ≠ a := fun h => haj h.symm
        apply ih
        · exact List.mem_filter.mpr ⟨hj, by simpa using hja⟩
        · rw [List.count_cons_of_ne hja] at hcount
          exact hcount
    · rw [if_neg ha]
      intro h
      cases h
      exact ha hj

/-! ## Jobs and the worker (sogon/workers/job_worker.py,
sogon/services/workflow_service.py)

`sogon/models/job.py` itself is not present in the sources (only its
declarations in `sogon/models/__init__.py` and its callers are), so the
`ProcessingJob` helper methods are modelled from the spec, as noted on
each definition.  The worker and workflow-service control flow below is
translated from the source files, which are present. -/

inductive JobStatus
  | pending
  | downloading
  | completed
  | failed
  | cancelled
  | notFound
deriving DecidableEq

structure ProcessingJob where
  id : String
  status : JobStatus
  retryCount : Nat
  maxRetries : Nat
  errorMessage : Option String
  dequeued : Bool
deriving DecidableEq

/-- Modelled from the spec: `ProcessingJob.can_retry` (models/job.py is
absent from the sources) — a job can retry while its retry counter is
below its maximum. -/
def ProcessingJob.canRetry (j : ProcessingJob) : Bool := j.retryCount < j.maxRetries

/-- Modelled from the spec: `ProcessingJob.increment_retry` — increment
the retry counter and record the error. -/
def ProcessingJob.incrementRetry (j : ProcessingJob) (e : String) : ProcessingJob :=
  { j with retryCount := j.retryCount + 1, errorMessage := some e }

/-- Modelled from the spec: `ProcessingJob.fail` — transition to `Failed`
with the error message. -/
def ProcessingJob.fail (j : ProcessingJob) (e : String) : ProcessingJob :=
  { j with status := .failed, errorMessage := some e }

/-- Modelled from the spec: `ProcessingJob.mark_dequeued` — record that
the job has been handed to a worker (dequeue timestamp). -/
def ProcessingJob.markDequeued (j : ProcessingJob) : ProcessingJob :=
  { j with dequeued := true }

/-- The outcome the external stages deliver to one workflow attempt:
`none` = all stages succeed, `some e` = some stage raises `e`. -/
abbrev StageOutcome := Option String

/-- `WorkflowServiceImpl._process_local_file_workflow`: sets
`DOWNLOADING`, runs the stages, sets `COMPLETED` on success — and on ANY
stage exception CATCHES it, sets `FAILED` with the message, and returns
normally (the `except` block does not re-raise). -/
def processLocalFileWorkflow (job : ProcessingJob) (outcome : StageOutcome) : ProcessingJob :=
  let job1 := { job with status := JobStatus.downloading }
  match outcome with
  | none => { job1 with status := JobStatus.completed }
  | some e => { job1 with status := JobStatus.failed, errorMessage := some e }

/-- `JobWorker._execute_workflow` for a local-file job: delegates to the
workflow service.  Because `_process_local_file_workflow` swallows stage
exceptions, this call never produces an error value. -/
def executeWorkflow (job : ProcessingJob) (outcome : StageOutcome) :
    Except String ProcessingJob :=
  Except.ok (processLocalFileWorkflow job outcome)

/-- `JobWorker._execute_with_retry`: the `while job.retry_count <=
job.max_retries` loop, one `StageOutcome` consumed per attempt.  Returns
the final job and the list of backoff delays (seconds) slept.  The fuel
argument bounds the loop (`maxRetries + 1` iterations suffice, since every
non-returning iteration increments `retry_count`). -/
def executeWithRetry : Nat → ProcessingJob → List StageOutcome → ProcessingJob × List Nat
  | 0, job, _ => (job, [])
  | fuel + 1, job, outcomes =>
    if job.retryCount ≤ job.maxRetries then
      let job1 := if job.status = JobStatus.pending
        then { job with status := JobStatus.downloading } else job
      match executeWorkflow job1 (outcomes.headD none) with
      | Except.ok j2 => (j2, [])
      | Except.error e =>
        if job1.canRetry then
          let j2 := job1.incrementRetry e
          let delay := 2 ^ j2.retryCount
          let r := executeWithRetry fuel j2 outcomes.tail
          (r.1, delay :: r.2)
        else
          (job1.fail ("Max retries exceeded. Last error: " ++ e), [])
    else (job, [])

/-- `JobWorker._process_job`: fetch the job (`none` = not in repository:
return without doing anything); skip a job whose persisted status is
already `CANCELLED`; otherwise mark it dequeued and execute with retry. -/
def processJob (stored : Option ProcessingJob) (outcomes : List StageOutcome) :
    Option ProcessingJob :=
  match stored with
  | none => none
  | some job =>
    if job.status = JobStatus.cancelled then some job
    else
      let job1 := job.markDequeued
      some (executeWithRetry (job1.maxRetries + 1) job1 outcomes).1

/-- C4 evidence: a pending local-file job with `retry_count = 0`,
`max_retries = 3` whose FIRST attempt hits a transient stage failure (all
later attempts would succeed).  The code ends with status `Failed`, retry
counter still 0, and NO backoff sleeps: the workflow service swallowed the
exception, so `_execute_with_retry` never saw it and never retried. -/
theorem retry_never_triggers :
    (executeWithRetry 4 ⟨"job-1", JobStatus.pending, 0, 3, none, true⟩
        [some "TranscriptionTimeout: request timed out", none, none, none]).1.status =
      JobStatus.failed ∧
    (executeWithRetry 4 ⟨"job-1", JobStatus.pending, 0, 3, none, true⟩
        [some "TranscriptionTimeout: request timed out", none, none, none]).1.retryCount = 0 ∧
    (executeWithRetry 4 ⟨"job-1", JobStatus.pending, 0, 3, none, true⟩
        [some "TranscriptionTimeout: request timed out", none, none, none]).2 = [] := by
  refine ⟨rfl, rfl, rfl⟩

/-- C6: a job id marked cancelled while queued (enqueued once) is never
returned by `dequeue`; and a job whose persisted status is already
`Cancelled` when the worker picks it up is skipped without any state
transition (the stored job is returned untouched and no stage runs). -/
theorem cancelled_never_executed :
    (∀ (s : QueueState) (j : String), j ∈ s.cancelled → s.queue.count j ≤ 1 →
      (dequeue s).1 ≠ some j) ∧
    (∀ (job : ProcessingJob) (outcomes : List StageOutcome),
      job.status = JobStatus.cancelled → processJob (some job) outcomes = some job) := by
  constructor
  · intro s j hj hcount
    exact dequeueLoop_skips_cancelled s.queue s.cancelled j hj hcount
  · intro job outcomes h
    simp [processJob, h]

/-- Witness for C6: queue `["x"]` with `"x"` cancelled blocks instead of
returning `"x"`, and a cancelled stored job is returned unchanged. -/
theorem cancelled_never_executed_witness :
    ("x" ∈ (⟨5, ["x"], ["x"]⟩ : QueueState).cancelled ∧
      (⟨5, ["x"], ["x"]⟩ : QueueState).queue.count "x" ≤ 1 ∧
      (dequeue ⟨5, ["x"], ["x"]⟩).1 ≠ some "x") ∧
    ((⟨"j", JobStatus.cancelled, 0, 3, none, false⟩ : ProcessingJob).status =
        JobStatus.cancelled ∧
      processJob (some ⟨"j", JobStatus.cancelled, 0, 3, none, false⟩) [none] =
        some ⟨"j", JobStatus.cancelled, 0, 3, none, false⟩) :=
  ⟨⟨by decide, by decide,
      cancelled_never_executed.1 ⟨5, ["x"], ["x"]⟩ "x" (by decide) (by decide)⟩,
    ⟨rfl, cancelled_never_executed.2 ⟨"j", JobStatus.cancelled, 0, 3, none, false⟩ [none] rfl⟩⟩

/-- C10: `cancel` returns `true` for every job id, including one never
enqueued; the mark is sticky and consumed exactly once: enqueue the same
id twice afterwards, and a single `dequeue` skips and discards the first
occurrence but delivers the second, with the cancellation mark gone. -/
theorem cancel_sticky_consumed_once :
    (∀ (s : QueueState) (j : String), (cancel s j).1 = true) ∧
    (∀ (j : String) (n : Nat), 2 ≤ n →
      (enqueue (cancel ⟨n, [], []⟩ j).2 j).1 = true ∧
      (enqueue (enqueue (cancel ⟨n, [], []⟩ j).2 j).2 j).1 = true ∧
      dequeue (enqueue (enqueue (cancel ⟨n, [], []⟩ j).2 j).2 j).2 =
        (some j, ⟨n, [], []⟩)) := by
  constructor
  · intro s j; rfl
  · intro j n hn
    have hc : (cancel (⟨n, [], []⟩ : QueueState) j).2 = ⟨n, [], [j]⟩ := rfl
    have h1 : enqueue (⟨n, [], [j]⟩ : QueueState) j = (true, ⟨n, [j], [j]⟩) := by
      unfold enqueue
      rw [if_neg (by simp; omega)]
      rfl
    have h2 : enqueue (⟨n, [j], [j]⟩ : QueueState) j = (true, ⟨n, [j, j], [j]⟩) := by
      unfold enqueue
      rw [if_neg (by simp; omega)]
      rfl
    have h3 : dequeue (⟨n, [j, j], [j]⟩ : QueueState) = (some j, ⟨n, [], []⟩) := by
      simp [dequeue, dequeueLoop, List.filter]
    refine ⟨?_, ?_, ?_⟩ <;> simp [hc, h1, h2, h3]

/-- Witness for C10 at capacity 2 and job id `"j"`. -/
theorem cancel_sticky_consumed_once_witness :
    (cancel ⟨7, ["a"], []⟩ "j").1 = true ∧
    (2 ≤ 2 ∧
      ((enqueue (cancel ⟨2, [], []⟩ "j").2 "j").1 = true ∧
        (enqueue (enqueue (cancel ⟨2, [], []⟩ "j").2 "j").2 "j").1 = true ∧
        dequeue (enqueue (enqueue (cancel ⟨2, [], []⟩ "j").2 "j").2 "j").2 =
          (some "j", ⟨2, [], []⟩))) :=
  ⟨cancel_sticky_consumed_once.1 ⟨7, ["a"], []⟩ "j",
    ⟨by decide, cancel_sticky_consumed_once.2 "j" 2 (by decide)⟩⟩

/-! ## Transcription service (sogon/services/transcription_service.py)

`sogon/models/transcription.py` and `models/audio.py` are plain data
holders (fields read off their uses); the service logic below is
translated from the source.  `transcribe_audio` models the legacy
API-based path (`provider is None`): the raw `(text, metadata)` pair the
synchronous transcription returns is the function's input. -/

/-- Python's `str.strip()`: drop leading and trailing whitespace
(executable model; Lean's own `String.trim` does not reduce in the
kernel). -/
def pyStrip (s : String) : String :=
  ⟨((s.data.dropWhile Char.isWhitespace).reverse.dropWhile Char.isWhitespace).reverse⟩

structure TranscriptionSegment where
  id : Nat
  start : ℚ
  stop : ℚ
  text : String
  confidence : ℚ
deriving DecidableEq

structure TranscriptionResult where
  text : String
  segments : List TranscriptionSegment
  language : String
  duration : ℚ
  chunkNumber : Option Nat
  totalChunks : Nat
  chunkStartTime : Option ℚ
deriving DecidableEq

structure AudioChunk where
  chunkNumber : Nat
  totalChunks : Nat
  sizeBytes : Nat
  durationSeconds : ℚ
  startTimeSeconds : ℚ
deriving DecidableEq

/-- A raw segment dict of the transcription metadata:
`(start, end, text, confidence)`. -/
structure RawSegment where
  start : ℚ
  stop : ℚ
  text : String
  confidence : ℚ
deriving DecidableEq

/-- One metadata chunk dict: its `language` and its raw `segments`. -/
structure MetaChunk where
  language : String
  segments : List RawSegment
deriving DecidableEq

/-- `_create_segments_from_chunk`: ids are `start_id + i + 1`, text is
stripped. -/
def createSegmentsFromChunk (chunkSegments : List RawSegment) (startId : Nat) :
    List TranscriptionSegment :=
  chunkSegments.enum.map fun p =>
    ⟨startId + p.1 + 1, p.2.start, p.2.stop, pyStrip p.2.text, p.2.confidence⟩

/-- `_extract_segments_from_metadata`: concatenate every chunk's segments
(ids continuing from the current count); the language is the last
non-"unknown" chunk language. -/
def extractSegmentsFromMetadata (metadata : List MetaChunk) :
    List TranscriptionSegment × String :=
  metadata.foldl
    (fun acc m =>
      let lang := if m.language ≠ "unknown" then m.language else acc.2
      (acc.1 ++ createSegmentsFromChunk m.segments acc.1.length, lang))
    ([], "unknown")

/-- `_calculate_duration_from_segments`: the larger of the maximal segment
end and the fallback duration; just the fallback when there are no
segments. -/
def calculateDurationFromSegments (segments : List TranscriptionSegment)
    (fallback : ℚ) : ℚ :=
  match segments.map (·.stop) with
  | [] => fallback
  | e :: es => max (es.foldl max e) fallback

/-- `transcribe_audio` (legacy API path): raise `TranscriptionError` when
the raw text is empty (`if not text:` — note that a whitespace-only
string is truthy in Python and passes), otherwise convert to the domain
model with stripped text (`_convert_to_transcription_result`). -/
def transcribe_audio (text : String) (metadata : List MetaChunk)
    (audioDuration : ℚ) : Except String TranscriptionResult :=
  if text = "" then
    Except.error "Transcription failed: Transcription returned empty result"
  else
    let extracted := extractSegmentsFromMetadata metadata
    Except.ok ⟨pyStrip text, extracted.1, extracted.2,
      calculateDurationFromSegments extracted.1 audioDuration, none, 1, some 0⟩

/-- C9 counterexample: a transcription call that succeeds with the empty
string makes `transcribe_audio` raise a `TranscriptionError` instead of
returning successfully with an empty segment list. -/
theorem empty_result_raises :
    transcribe_audio "" [] 60 =
      Except.error "Transcription failed: Transcription returned empty result" := rfl

/-- C9 as amended: only a whitespace-only but NON-empty raw result returns
successfully — with the text stripped (possibly to empty) and the
segments taken from the metadata (empty when the metadata has none); a
strictly empty raw text raises. -/
theorem whitespace_result_ok (text : String) (metadata : List MetaChunk) (d : ℚ)
    (h : text ≠ "") :
    ∃ r, transcribe_audio text metadata d = Except.ok r ∧
      r.text = pyStrip text ∧ (metadata = [] → r.segments = []) := by
  unfold transcribe_audio
  rw [if_neg h]
  exact ⟨_, rfl, rfl, fun hm => by subst hm; rfl⟩

/-- Witness for amended C9: the whitespace-only result `" "` succeeds with
empty stripped text and no segments. -/
theorem whitespace_result_ok_witness :
    (" " ≠ "") ∧
    (∃ r, transcribe_audio " " [] 0 = Except.ok r ∧
      r.text = pyStrip " " ∧ (([] : List MetaChunk) = [] → r.segments = [])) :=
  ⟨by decide, whitespace_result_ok " " [] 0 (by decide)⟩

/-- The empty `TranscriptionResult` that `transcribe_chunks` substitutes
for a failed chunk. -/
def emptyResultFor (chunk : AudioChunk) : TranscriptionResult :=
  ⟨"", [], "unknown", chunk.durationSeconds, some chunk.chunkNumber,
    chunk.totalChunks, some chunk.startTimeSeconds⟩

/-- The chunk bookkeeping `transcribe_chunks` stamps onto a successful
per-chunk result. -/
def withChunkInfo (r : TranscriptionResult) (chunk : AudioChunk) : TranscriptionResult :=
  { r with chunkNumber := some chunk.chunkNumber, totalChunks := chunk.totalChunks,
           chunkStartTime := some chunk.startTimeSeconds }

/-- `transcribe_chunks`: `asyncio.gather(..., return_exceptions=True)`
turns each chunk transcription into a value-or-exception; the input here
is each chunk paired with that outcome.  Failed chunks yield an empty
result, successful ones are stamped with their chunk info. -/
def transcribe_chunks
    (results : List (AudioChunk × Except String TranscriptionResult)) :
    List TranscriptionResult :=
  results.map fun p =>
    match p.2 with
    | Except.error _ => emptyResultFor p.1
    | Except.ok r => withChunkInfo r p.1

/-- C8: `transcribe_chunks` never raises on chunk failures and returns one
result per chunk in chunk order; a failed chunk contributes a result with
empty text and empty segments carrying that chunk's number and start
offset, a successful chunk keeps its result (stamped with chunk info). -/
theorem failed_chunks_empty_results
    (results : List (AudioChunk × Except String TranscriptionResult)) :
    (transcribe_chunks results).length = results.length ∧
    (∀ (i : Nat) (chunk : AudioChunk) (e : String),
      results[i]? = some (chunk, Except.error e) →
      (transcribe_chunks results)[i]? = some (emptyResultFor chunk)) ∧
    (∀ (i : Nat) (chunk : AudioChunk) (r : TranscriptionResult),
      results[i]? = some (chunk, Except.ok r) →
      (transcribe_chunks results)[i]? = some (withChunkInfo r chunk)) := by
  refine ⟨List.length_map _ _, ?_, ?_⟩
  · intro i chunk e h
    simp [transcribe_chunks, List.getElem?_map, h]
  · intro i chunk r h
    simp [transcribe_chunks, List.getElem?_map, h]

/-- Witness for C8: of two chunks the first fails and the second
succeeds; the output pairs them up positionally. -/
theorem failed_chunks_empty_results_witness :
    ([((⟨1, 2, 100, 60, 0⟩ : AudioChunk),
        (Except.error "boom" : Except String TranscriptionResult)),
      (⟨2, 2, 100, 30, 60⟩, Except.ok ⟨"hi", [], "en", 30, none, 1, some 0⟩)][0]? =
      some (⟨1, 2, 100, 60, 0⟩, Except.error "boom")) ∧
    (transcribe_chunks
        [(⟨1, 2, 100, 60, 0⟩, Except.error "boom"),
          (⟨2, 2, 100, 30, 60⟩, Except.ok ⟨"hi", [], "en", 30, none, 1, some 0⟩)])[0]? =
      some (emptyResultFor ⟨1, 2, 100, 60, 0⟩) :=
  ⟨rfl, (failed_chunks_empty_results _).2.1 0 _ "boom" rfl⟩

/-- The comparison `combine_transcriptions` sorts results by:
`key=lambda r: r.chunk_number or 0` (stable sort). -/
def chunkLE (a b : TranscriptionResult) : Bool :=
  a.chunkNumber.getD 0 ≤ b.chunkNumber.getD 0

/-- The inner loop body of `_combine_segments_with_offset`: append the
segment shifted by the chunk's `time_offset`, with the running
`segment_id`, and increment the id. -/
def combineSegStep (timeOffset : ℚ) (acc2 : List TranscriptionSegment × Nat)
    (segment : TranscriptionSegment) : List TranscriptionSegment × Nat :=
  (acc2.1 ++ [⟨acc2.2, segment.start + timeOffset, segment.stop + timeOffset,
    segment.text, segment.confidence⟩], acc2.2 + 1)

/-- The outer loop body of `_combine_segments_with_offset`: process one
result's segments with `time_offset = result.chunk_start_time or 0`. -/
def combineResultStep (acc : List TranscriptionSegment × Nat)
    (result : TranscriptionResult) : List TranscriptionSegment × Nat :=
  result.segments.foldl (combineSegStep (result.chunkStartTime.getD 0)) acc

/-- `_combine_segments_with_offset`: concatenate every result's
offset-shifted segments in result order, ids running from 1. -/
def combine_segments_with_offset (sortedResults : List TranscriptionResult) :
    List TranscriptionSegment :=
  (sortedResults.foldl combineResultStep ([], 1)).1

/-- `combine_transcriptions`: raises on an empty result list; otherwise
sorts results by chunk number and combines text, segments, duration and
language. -/
def combine_transcriptions (results : List TranscriptionResult) :
    Except String TranscriptionResult :=
  if results = [] then Except.error "No transcription results to combine"
  else
    let sortedResults := results.mergeSort chunkLE
    let combinedText := String.intercalate " "
      ((sortedResults.map (fun r => pyStrip r.text)).filter (fun t => t ≠ ""))
    let combinedSegments := combine_segments_with_offset sortedResults
    let totalDuration := (sortedResults.map (·.duration)).sum
    let language := ((sortedResults.map (·.language)).filter (fun l => l ≠ "")).headD "unknown"
    Except.ok ⟨combinedText, combinedSegments, language, totalDuration, none,
      sortedResults.length, some 0⟩

/-- The combined segment list as claim C1 words it: drop segments whose
text is empty after trimming, add each chunk's start offset to the
remaining segments' start and end, then stable-sort all projected
segments by start time ascending. -/
def combine_transcriptions_claimed (results : List TranscriptionResult) :
    List TranscriptionSegment :=
  ((results.map fun r =>
      (r.segments.filter fun s => pyStrip s.text ≠ "").map fun s =>
        { s with start := s.start + r.chunkStartTime.getD 0,
                 stop := s.stop + r.chunkStartTime.getD 0 }).flatten).mergeSort
    fun a b => a.start ≤ b.start

/-- Projection of a segment's observable payload, to compare segment
lists independently of the id renumbering. -/
def segTriple (s : TranscriptionSegment) : ℚ × ℚ × String := (s.start, s.stop, s.text)

/-- C1 counterexample: one chunk (offset 0) with segments
`(5,6," ")` then `(0,1,"b")`.  The claimed combination drops the
whitespace-only segment and sorts by start (one segment `(0,1,"b")`); the
code keeps both, in original order `(5,6," "), (0,1,"b")` — it neither
drops empty-text segments nor sorts by start time. -/
theorem combine_not_as_claimed :
    (combine_transcriptions
        [⟨"x", [⟨1, 5, 6, " ", 0⟩, ⟨2, 0, 1, "b", 0⟩], "en", 10, some 1, 1, some 0⟩]).toOption.map
        (fun t => t.segments.map segTriple) ≠
      some ((combine_transcriptions_claimed
        [⟨"x", [⟨1, 5, 6, " ", 0⟩, ⟨2, 0, 1, "b", 0⟩], "en", 10, some 1, 1, some 0⟩]).map
        segTriple) := by
  have himpl : (combine_transcriptions
      [⟨"x", [⟨1, 5, 6, " ", 0⟩, ⟨2, 0, 1, "b", 0⟩], "en", 10, some 1, 1, some 0⟩]).toOption.map
      (fun t => t.segments.map segTriple) =
      some [((5 : ℚ), (6 : ℚ), " "), ((0 : ℚ), (1 : ℚ), "b")] := by
    simp only [combine_transcriptions, List.mergeSort_singleton]
    rw [if_neg (by simp)]
    simp [Except.toOption, combine_segments_with_offset, combineResultStep, combineSegStep,
      segTriple]
  have hclaim : (combine_transcriptions_claimed
      [⟨"x", [⟨1, 5, 6, " ", 0⟩, ⟨2, 0, 1, "b", 0⟩], "en", 10, some 1, 1, some 0⟩]).map
      segTriple = [((0 : ℚ), (1 : ℚ), "b")] := by
    have ht1 : (decide (pyStrip " " = "") : Bool) = true := by decide
    have ht2 : (decide (pyStrip "b" = "") : Bool) = false := by decide
    simp only [combine_transcriptions_claimed, List.map, List.filter, List.flatten,
      ht1, ht2, Bool.not_true, Bool.not_false]
    simp [segTriple]
  rw [himpl, hclaim]
  simp

/-- One result's segments shifted by its chunk start offset
(`time_offset = result.chunk_start_time or 0`; ids untouched). -/
def projectSegments (r : TranscriptionResult) : List TranscriptionSegment :=
  r.segments.map fun s =>
    { s with start := s.start + r.chunkStartTime.getD 0,
             stop := s.stop + r.chunkStartTime.getD 0 }

/-- Sequential renumbering of segment ids starting at `n` (the running
`segment_id` of `_combine_segments_with_offset`). -/
def renumberFrom : Nat → List TranscriptionSegment → List TranscriptionSegment
  | _, [] => []
  | n, s :: rest => { s with id := n } :: renumberFrom (n + 1) rest

theorem renumberFrom_append (xs ys : List TranscriptionSegment) :
    ∀ n, renumberFrom n (xs ++ ys) =
      renumberFrom n xs ++ renumberFrom (n + xs.length) ys := by
  induction xs with
  | nil => intro n; simp [renumberFrom]
  | cons x xs ih =>
    intro n
    simp only [List.cons_append, renumberFrom, List.append_eq, ih (n + 1), List.length_cons]
    rw [show n + 1 + xs.length = n + (xs.length + 1) from by omega]

theorem foldl_combineSegStep (off : ℚ) (segs : List TranscriptionSegment) :
    ∀ acc : List TranscriptionSegment × Nat,
      segs.foldl (combineSegStep off) acc =
        (acc.1 ++ renumberFrom acc.2 (segs.map fun s =>
          { s with start := s.start + off, stop := s.stop + off }),
          acc.2 + segs.length) := by
  induction segs with
  | nil => intro acc; simp [renumberFrom]
  | cons s rest ih =>
    intro acc
    simp only [List.foldl_cons, ih, combineSegStep, List.map_cons, renumberFrom,
      List.length_cons, Prod.mk.injEq]
    constructor
    · simp [List.append_assoc]
    · omega

theorem combineResultStep_eq (acc : List TranscriptionSegment × Nat)
    (r : TranscriptionResult) :
    combineResultStep acc r =
      (acc.1 ++ renumberFrom acc.2 (projectSegments r),
        acc.2 + (projectSegments r).length) := by
  unfold combineResultStep projectSegments
  rw [foldl_combineSegStep]
  simp [List.length_map]

theorem foldl_combineResultStep (rs : List TranscriptionResult) :
    ∀ acc : List TranscriptionSegment × Nat,
      rs.foldl combineResultStep acc =
        (acc.1 ++ renumberFrom acc.2 ((rs.map projectSegments).flatten),
          acc.2 + ((rs.map projectSegments).flatten).length) := by
  induction rs with
  | nil => intro acc; simp [renumberFrom]
  | cons r rest ih =>
    intro acc
    rw [List.foldl_cons, combineResultStep_eq, ih]
    simp only [List.map_cons, List.flatten_cons, renumberFrom_append,
      List.length_append, Prod.mk.injEq]
    constructor
    · simp [List.append_assoc]
    · omega

theorem combine_segments_eq (rs : List TranscriptionResult) :
    combine_segments_with_offset rs =
      renumberFrom 1 ((rs.map projectSegments).flatten) := by
  unfold combine_segments_with_offset
  rw [foldl_combineResultStep]
  simp

/-- C1 as amended: for a non-empty result list, the combined segment list
equals: sort the results by chunk number (missing treated as 0, stable
sort), project each result's segments by its chunk start offset,
concatenate in that order, and renumber ids sequentially from 1 —
empty-text segments are kept and no sort by segment start time occurs. -/
theorem combine_projects_in_chunk_order (results : List TranscriptionResult)
    (h : results ≠ []) :
    ∃ t, combine_transcriptions results = Except.ok t ∧
      t.segments =
        renumberFrom 1 (((results.mergeSort chunkLE).map projectSegments).flatten) := by
  unfold combine_transcriptions
  rw [if_neg h]
  exact ⟨_, rfl, combine_segments_eq _⟩

/-- Witness for amended C1 on a single chunk at offset 9. -/
theorem combine_projects_in_chunk_order_witness :
    (([⟨"hi", [⟨1, 0, 2, "hi", 0⟩], "en", 2, some 1, 1, some 9⟩] :
        List TranscriptionResult) ≠ []) ∧
    (∃ t, combine_transcriptions
        [⟨"hi", [⟨1, 0, 2, "hi", 0⟩], "en", 2, some 1, 1, some 9⟩] = Except.ok t ∧
      t.segments = renumberFrom 1
        ((([(⟨"hi", [⟨1, 0, 2, "hi", 0⟩], "en", 2, some 1, 1, some 9⟩ :
            TranscriptionResult)].mergeSort chunkLE).map projectSegments).flatten)) :=
  ⟨by simp, combine_projects_in_chunk_order _ (by simp)⟩

/-! ## Segmenter: `split_audio_by_size` (sogon/downloader.py)

Times in integer milliseconds (pydub), sizes in bytes.  The trial mp3
exports are abstracted by `exportSize start end`, the on-disk byte size
of the chunk `audio[start:end]` exported at 128k.  The float bitrate
estimate is carried out exactly: with
`target_chunk_size_mb = max_chunk_size_mb * 0.9` the estimated chunk
duration equals `0.9 * maxBytes / sizeBytes * totalDurationMs`,
truncated.  The `while start_time < total_duration_ms` loop is written
with a fuel argument (`totalDurationMs + 1` always suffices: every
emitted chunk advances the cursor by at least 30000 ms, and the loop
stops at the first shorter chunk). -/

structure AudioEnv where
  totalDurationMs : Nat
  sizeBytes : Nat
  exportSize : Nat → Nat → Nat

/-- `estimated_chunk_duration_ms = int((target_chunk_size_mb * 1024 * 8 *
1000) / original_bitrate_kbps)`, computed exactly. -/
def estimatedChunkDurationMs (env : AudioEnv) (maxBytes : Nat) : Nat :=
  9 * maxBytes * env.totalDurationMs / (10 * env.sizeBytes)

/-- The `for extra_minutes in [1, 2]` greedy extension: keep the largest
extension that still fits; an extension that does not fit the remaining
time is skipped (no break), one that fits the time but overshoots the
size ceiling breaks the loop. -/
def bestWithExtensions (env : AudioEnv) (maxBytes startTime target : Nat) : Nat :=
  let ext1 := target + 60000
  let ext2 := target + 120000
  if startTime + ext1 ≤ env.totalDurationMs then
    if env.exportSize startTime (startTime + ext1) ≤ maxBytes then
      if startTime + ext2 ≤ env.totalDurationMs then
        if env.exportSize startTime (startTime + ext2) ≤ maxBytes then ext2 else ext1
      else ext1
    else target
  else
    if startTime + ext2 ≤ env.totalDurationMs then
      if env.exportSize startTime (startTime + ext2) ≤ maxBytes then ext2 else target
    else target

/-- The per-iteration duration choice: whole remainder when it is at most
the 30 s minimum; otherwise trial-export the estimated duration, extend
greedily when it fits, halve (clamped to the minimum) when it overshoots
— note the halved duration is NOT re-checked against the ceiling. -/
def chooseBestDuration (env : AudioEnv) (maxBytes estMs startTime : Nat) : Nat :=
  let remaining := env.totalDurationMs - startTime
  let minDuration := 30000
  if remaining ≤ minDuration then remaining
  else
    let target := min estMs remaining
    let endTime := min (startTime + target) env.totalDurationMs
    if env.exportSize startTime endTime ≤ maxBytes then
      bestWithExtensions env maxBytes startTime target
    else
      max minDuration (target / 2)

/-- The `while start_time < total_duration_ms` loop; a chunk shorter than
30 s is skipped and the loop breaks. -/
def splitLoop (env : AudioEnv) (maxBytes estMs : Nat) : Nat → Nat → List (Nat × Nat)
  | 0, _ => []
  | fuel + 1, startTime =>
    if startTime < env.totalDurationMs then
      let best := chooseBestDuration env maxBytes estMs startTime
      let endTime := min (startTime + best) env.totalDurationMs
      if endTime - startTime < 30000 then []
      else (startTime, endTime) :: splitLoop env maxBytes estMs fuel endTime
    else []

/-- `split_audio_by_size`: a source already within the ceiling is returned
whole; otherwise the loop splits it from cursor 0. -/
def split_audio_by_size (env : AudioEnv) (maxChunkSizeMB : Nat) : List (Nat × Nat) :=
  let maxBytes := maxChunkSizeMB * 1048576
  if env.sizeBytes ≤ maxBytes then [(0, env.totalDurationMs)]
  else
    splitLoop env maxBytes (estimatedChunkDurationMs env maxBytes)
      (env.totalDurationMs + 1) 0

/-- Any fuel beyond the remaining duration gives the same chunk list: the
fuel in `splitLoop` is an artefact of the embedding, not a truncation. -/
theorem splitLoop_fuel_sufficient (env : AudioEnv) (maxBytes estMs : Nat) :
    ∀ (fuel₁ fuel₂ startTime : Nat),
      env.totalDurationMs - startTime < fuel₁ →
      env.totalDurationMs - startTime < fuel₂ →
      splitLoop env maxBytes estMs fuel₁ startTime =
        splitLoop env maxBytes estMs fuel₂ startTime := by
  intro fuel₁
  induction fuel₁ with
  | zero => intro fuel₂ startTime h₁ _; omega
  | succ f₁ ih =>
    intro fuel₂ startTime h₁ h₂
    match fuel₂, h₂ with
    | f₂ + 1, _ =>
      show splitLoop env maxBytes estMs (f₁ + 1) startTime =
        splitLoop env maxBytes estMs (f₂ + 1) startTime
      unfold splitLoop
      by_cases hlt : startTime < env.totalDurationMs
      · rw [if_pos hlt, if_pos hlt]
        by_cases hshort :
            min (startTime + chooseBestDuration env maxBytes estMs startTime)
              env.totalDurationMs - startTime < 30000
        · rw [if_pos hshort, if_pos hshort]
        · rw [if_neg hshort, if_neg hshort]
          have hend : startTime + 30000 ≤
              min (startTime + chooseBestDuration env maxBytes estMs startTime)
                env.totalDurationMs := by omega
          have hle : min (startTime + chooseBestDuration env maxBytes estMs startTime)
              env.totalDurationMs ≤ env.totalDurationMs := Nat.min_le_right _ _
          rw [ih f₂ _ (by omega) (by omega)]
      · rw [if_neg hlt, if_neg hlt]

/-- The structural invariant of the split loop: chunks start at the
cursor, are contiguous, strictly increasing, at least 30 s long, and end
within the source. -/
theorem splitLoop_invariant (env : AudioEnv) (maxBytes estMs : Nat) :
    ∀ (fuel startTime : Nat),
      List.Chain' (fun a b => a.2 = b.1) (splitLoop env maxBytes estMs fuel startTime) ∧
      (∀ c ∈ splitLoop env maxBytes estMs fuel startTime,
        startTime ≤ c.1 ∧ c.1 < c.2 ∧ 30000 ≤ c.2 - c.1 ∧
          c.2 ≤ env.totalDurationMs) ∧
      (∀ c, (splitLoop env maxBytes estMs fuel startTime).head? = some c →
        c.1 = startTime) := by
  intro fuel
  induction fuel with
  | zero =>
    intro startTime
    refine ⟨by simp [splitLoop], by simp [splitLoop], by simp [splitLoop]⟩
  | succ f ih =>
    intro startTime
    unfold splitLoop
    by_cases hlt : startTime < env.totalDurationMs
    · rw [if_pos hlt]
      by_cases hshort :
          min (startTime + chooseBestDuration env maxBytes estMs startTime)
            env.totalDurationMs - startTime < 30000
      · rw [if_pos hshort]
        exact ⟨by simp, by simp, by simp⟩
      · rw [if_neg hshort]
        obtain ⟨ihChain, ihMem, ihHead⟩ :=
          ih (min (startTime + chooseBestDuration env maxBytes estMs startTime)
            env.totalDurationMs)
        have hle : min (startTime + chooseBestDuration env maxBytes estMs startTime)
            env.totalDurationMs ≤ env.totalDurationMs := Nat.min_le_right _ _
        refine ⟨?_, ?_, ?_⟩
        · rw [List.chain'_cons']
          exact ⟨fun c hc => (ihHead c hc).symm, ihChain⟩
        · intro c hc
          rcases List.mem_cons.mp hc with hc | hc
          · subst hc
            refine ⟨le_refl _, by omega, by omega, hle⟩
          · have := ihMem c hc
            refine ⟨by omega, this.2.1, this.2.2.1, this.2.2.2⟩
        · intro c hc
          simp only [List.head?_cons, Option.some.injEq] at hc
          rw [← hc]
    · rw [if_neg hlt]
      exact ⟨by simp, by simp, by simp⟩

/-- C3 as amended: for a source whose on-disk size exceeds the ceiling,
the emitted chunks are contiguous (each begins where the previous ended),
strictly increasing, each at least 30 s long and ending within the
source, and the first chunk starts at offset 0 — but the chunk ranges
cover only a prefix of the source: a final remainder shorter than 30 s is
dropped, not merged, and nothing bounds the size of a chunk produced by
the halving fallback. -/
theorem split_chunks_structure (env : AudioEnv) (maxChunkSizeMB : Nat)
    (h : maxChunkSizeMB * 1048576 < env.sizeBytes) :
    List.Chain' (fun a b => a.2 = b.1) (split_audio_by_size env maxChunkSizeMB) ∧
    (∀ c ∈ split_audio_by_size env maxChunkSizeMB,
      c.1 < c.2 ∧ 30000 ≤ c.2 - c.1 ∧ c.2 ≤ env.totalDurationMs) ∧
    (∀ c, (split_audio_by_size env maxChunkSizeMB).head? = some c → c.1 = 0) := by
  unfold split_audio_by_size
  rw [if_neg (by omega)]
  obtain ⟨hChain, hMem, hHead⟩ := splitLoop_invariant env (maxChunkSizeMB * 1048576)
    (estimatedChunkDurationMs env (maxChunkSizeMB * 1048576))
    (env.totalDurationMs + 1) 0
  exact ⟨hChain, fun c hc => ⟨(hMem c hc).2.1, (hMem c hc).2.2.1, (hMem c hc).2.2.2⟩, hHead⟩

/-- A concrete 100 s source of 2 MiB whose trial exports are 100 bytes
per millisecond — drives the loop into the unchecked halving fallback and
leaves a 10 s tail. -/
def splitEnvEx : AudioEnv := ⟨100000, 2097152, fun s e => (e - s) * 100⟩

/-- C3 counterexample: with a 1 MiB ceiling the loop emits three 30 s
chunks `(0,30000),(30000,60000),(60000,90000)`: the durations sum to
90 s, not the 100 s source duration (the 10 s remainder is dropped, not
merged into the previous chunk), and the first chunk's exported size is
3 000 000 bytes, far above the 1 048 576-byte ceiling (the halving
fallback never re-checks the size). -/
theorem split_violates_claim :
    split_audio_by_size splitEnvEx 1 = [(0, 30000), (30000, 60000), (60000, 90000)] ∧
    ((split_audio_by_size splitEnvEx 1).map (fun c => c.2 - c.1)).sum = 90000 ∧
    splitEnvEx.totalDurationMs = 100000 ∧ (90000 ≠ 100000) ∧
    1 * 1048576 < splitEnvEx.sizeBytes ∧
    splitEnvEx.exportSize 0 30000 = 3000000 ∧ 1 * 1048576 < 3000000 := by
  decide

/-- Witness for amended C3 at the same environment. -/
theorem split_chunks_structure_witness :
    (1 * 1048576 < splitEnvEx.sizeBytes) ∧
    (List.Chain' (fun a b => a.2 = b.1) (split_audio_by_size splitEnvEx 1) ∧
    (∀ c ∈ split_audio_by_size splitEnvEx 1,
      c.1 < c.2 ∧ 30000 ≤ c.2 - c.1 ∧ c.2 ≤ splitEnvEx.totalDurationMs) ∧
    (∀ c, (split_audio_by_size splitEnvEx 1).head? = some c → c.1 = 0)) :=
  ⟨by decide, split_chunks_structure splitEnvEx 1 (by decide)⟩

end Sogon
